import Mathlib

/-!
Verification of the mikanos-rs-loader kernel-loading stage.

Shallow embedding of `src/mikanos-rs-loader/src/main.rs`:
the Segment Placement Planner and Segment Copier inside `load_elf`,
the allocation request it issues, and the `save_memory_map` text export.

Modelling conventions:
* `u64`/`usize` values (the target is x86_64, so `usize` is 64 bits) are `Nat`s;
  arithmetic the Rust program performs with `+`/`-` is modelled checked, i.e.
  an overflow or underflow is a panic, embedded as `Except.error` (Rust
  integer overflow is a program error; with overflow checks on it panics).
* Rust panics (failed slice bounds checks, arithmetic overflow, `unwrap` on a
  failed fallible call) are `Except.error msg`.
* Physical memory is a total function `Nat → Nat` from byte address to byte
  value; the raw kernel image is a `List Nat` of bytes.
* External collaborators (ELF parser, firmware allocator, file I/O) are taken
  at their interface boundary: the parsed program-header table is an input,
  and the allocation performed by `boot::allocate_pages` is recorded as an
  `AllocRequest` value rather than executed.
-/

namespace MikanLoader

/-- `elf::program_header::PT_LOAD`. -/
def PT_LOAD : Nat := 1

/-- `2^64`, one past the largest `u64`/`usize` value. -/
def U64_MOD : Nat := 18446744073709551616

/-- `usize::MAX`, the sentinel initial value of `addr_start`. -/
def USIZE_MAX : Nat := 18446744073709551615

/-- `page_size = 0x1000` in `load_elf`. -/
def PAGE_SIZE : Nat := 4096

/-- `uefi::boot::MemoryType::LOADER_DATA` (EFI_LOADER_DATA = 2). -/
def LOADER_DATA : Nat := 2

/-- One parsed program header, the fields `load_elf` reads
(`p_type : u32`, the rest `u64`, as exposed by the ELF parser). -/
structure ProgramHeader where
  p_type : Nat
  p_offset : Nat
  p_vaddr : Nat
  p_filesz : Nat
  p_memsz : Nat
  deriving DecidableEq, Repr

/-- Panic message of a Rust integer addition that overflows. -/
def addOverflowErr : String := "attempt to add with overflow"

/-- Panic message of a Rust integer subtraction that underflows. -/
def subOverflowErr : String := "attempt to subtract with overflow"

/-- Panic message of the bounds check on `dest[..p_filesz]` / `dest[p_filesz..]`. -/
def destSliceErr : String := "range end index out of range for the dest slice"

/-- Panic message of the bounds check on `elf_data[p_offset..p_offset+p_filesz]`. -/
def srcSliceErr : String := "range end index out of range for the source slice"

/-- Checked `u64`/`usize` addition: Rust `a + b`, panicking on overflow. -/
def checkedAdd64 (a b : Nat) : Except String Nat :=
  if a + b < U64_MOD then .ok (a + b) else .error addOverflowErr

/-- Checked `u64`/`usize` subtraction: Rust `a - b`, panicking on underflow. -/
def checkedSub64 (a b : Nat) : Except String Nat :=
  if b ≤ a then .ok (a - b) else .error subOverflowErr

/-- The address-range loop of `load_elf` (lines 63–72): starting from the
accumulator `(addr_start, addr_end)`, skip every non-`PT_LOAD` header and fold
`addr_start := min addr_start p_vaddr`, `addr_end := max addr_end (p_vaddr + p_memsz)`
over the loadable ones, the sum being checked `u64` addition. -/
def computeRange : Nat × Nat → List ProgramHeader → Except String (Nat × Nat)
  | acc, [] => .ok acc
  | acc, p :: ph =>
    if p.p_type ≠ PT_LOAD then computeRange acc ph
    else
      match checkedAdd64 p.p_vaddr p.p_memsz with
      | .error e => .error e
      | .ok segEnd => computeRange (min acc.1 p.p_vaddr, max acc.2 segEnd) ph

/-- The Segment Placement Planner (lines 63–77): compute the address range
from the sentinel accumulator `(usize::MAX, 0)`, then
`memsz = addr_end - addr_start` and `page_cnt = (memsz + page_size - 1) / page_size`.
Returns `(addr_start, addr_end, page_cnt)`. -/
def planPages (ph : List ProgramHeader) : Except String (Nat × Nat × Nat) :=
  match computeRange (USIZE_MAX, 0) ph with
  | .error e => .error e
  | .ok (s, e) =>
    match checkedSub64 e s with
    | .error er => .error er
    | .ok memsz =>
      match checkedAdd64 memsz PAGE_SIZE with
      | .error er => .error er
      | .ok t => .ok (s, e, (t - 1) / PAGE_SIZE)

/-- The panics the copy of one loadable segment can hit, in source order
(lines 90–95): the receiver slice `dest[..p_filesz]` is bounds-checked against
`dest.len() = p_memsz`; then the argument computes `p_offset + p_filesz`
(checked `u64` addition) and slices `elf_data[p_offset..p_offset+p_filesz]`,
bounds-checked against the source buffer length. -/
def segGuard (srcLen : Nat) (p : ProgramHeader) : Except String Unit :=
  if p.p_memsz < p.p_filesz then .error destSliceErr
  else
    match checkedAdd64 p.p_offset p.p_filesz with
    | .error e => .error e
    | .ok srcEnd =>
      if srcLen < srcEnd then .error srcSliceErr
      else .ok ()

/-- The memory effect of copying one loadable segment (lines 90–95), after the
bounds checks passed: inside the destination window
`[p_vaddr, p_vaddr + p_memsz)` the first `p_filesz` bytes come from the source
buffer at `p_offset + (a - p_vaddr)` and the rest are zero-filled; every other
address is untouched. -/
def segWrite (src : List Nat) (p : ProgramHeader) (m : Nat → Nat) : Nat → Nat :=
  fun a =>
    if p.p_vaddr ≤ a ∧ a < p.p_vaddr + p.p_memsz then
      if a < p.p_vaddr + p.p_filesz then src.getD (p.p_offset + (a - p.p_vaddr)) 0
      else 0
    else m a

/-- One iteration of the segment-copy loop (lines 86–96): a non-`PT_LOAD`
header is skipped (`continue`); a loadable one is bounds-checked and copied. -/
def copySegment (src : List Nat) (m : Nat → Nat) (p : ProgramHeader) :
    Except String (Nat → Nat) :=
  if p.p_type ≠ PT_LOAD then .ok m
  else
    match segGuard src.length p with
    | .error e => .error e
    | .ok _ => .ok (segWrite src p m)

/-- The whole segment-copy loop of `load_elf` over the program-header table. -/
def loadSegments (src : List Nat) : (Nat → Nat) → List ProgramHeader → Except String (Nat → Nat)
  | m, [] => .ok m
  | m, p :: ph =>
    match copySegment src m p with
    | .error e => .error e
    | .ok m1 => loadSegments src m1 ph

/-- The arguments `load_elf` passes to `boot::allocate_pages` (lines 78–83):
`AllocateType::Address(addr_start)`, a `MemoryType`, and the page count. -/
structure AllocRequest where
  address : Nat
  memory_type : Nat
  page_count : Nat
  deriving DecidableEq, Repr

/-- `load_elf` (lines 60–99) after ELF parsing: plan the address range and the
page count, issue the fixed-address allocation request (recorded; the firmware
call is external and its `unwrap` is assumed to succeed), then run the
segment-copy loop. Returns the request and the final memory. -/
def load_elf (src : List Nat) (m : Nat → Nat) (ph : List ProgramHeader) :
    Except String (AllocRequest × (Nat → Nat)) :=
  match planPages ph with
  | .error e => .error e
  | .ok (s, _, cnt) =>
    match loadSegments src m ph with
    | .error e => .error e
    | .ok m1 => .ok (⟨s, LOADER_DATA, cnt⟩, m1)

/-! ## Specification-side predicates

These state, in the spec's words, what planning and copying should achieve;
the theorems below relate them to the embedded code. -/

/-- The virtual addresses of the loadable segments. -/
def loadableVaddrs (ph : List ProgramHeader) : List Nat :=
  (ph.filter (fun p => p.p_type == PT_LOAD)).map ProgramHeader.p_vaddr

/-- The end addresses `virtual_address + memory_size` of the loadable segments. -/
def loadableEnds (ph : List ProgramHeader) : List Nat :=
  (ph.filter (fun p => p.p_type == PT_LOAD)).map (fun p => p.p_vaddr + p.p_memsz)

/-- The Copier's contract for one segment: in memory `m`, the first
`p_filesz` bytes at `p_vaddr` equal the source bytes at
`[p_offset, p_offset + p_filesz)`, and bytes `[p_filesz, p_memsz)` of the
destination window are zero. -/
def segmentLoaded (src : List Nat) (m : Nat → Nat) (p : ProgramHeader) : Prop :=
  (∀ i, i < p.p_filesz → m (p.p_vaddr + i) = src.getD (p.p_offset + i) 0)
  ∧ ∀ i, p.p_filesz ≤ i → i < p.p_memsz → m (p.p_vaddr + i) = 0

/-- Two program headers have disjoint destination windows whenever both are
loadable. -/
def segDisjoint (p q : ProgramHeader) : Prop :=
  p.p_type = PT_LOAD → q.p_type = PT_LOAD →
    p.p_vaddr + p.p_memsz ≤ q.p_vaddr ∨ q.p_vaddr + q.p_memsz ≤ p.p_vaddr

/-! ## The memory-map export (`save_memory_map`, lines 26–50)

The file contents are modelled as a `List Char`. The Rust format string is
`"{}, {:#x}, {:?}, {:#08x}, {}, {:#x}\n"`; `{}` is decimal, `{:#x}` is
`0x`-prefixed lowercase hex, `{:#08x}` additionally zero-pads to a total
width of 8 (the `0x` prefix included). The `{:?}` rendering of the
descriptor's `MemoryType` comes from the external `uefi` crate's `Debug`
implementation and is kept abstract as a function `tyName`. -/

/-- The digit character for a value below 16: `0`–`9` then lowercase `a`–`f`. -/
def digitChar (n : Nat) : Char :=
  if n < 10 then Char.ofNat (48 + n) else Char.ofNat (87 + n)

/-- Big-endian hexadecimal digits of `n`, as Rust `{:x}` renders them. -/
def hexChars (n : Nat) : List Char :=
  if _h : n < 16 then [digitChar n]
  else hexChars (n / 16) ++ [digitChar (n % 16)]
decreasing_by exact Nat.div_lt_self (by omega) (by omega)

/-- Big-endian decimal digits of `n`, as Rust `{}` renders them. -/
def decChars (n : Nat) : List Char :=
  if _h : n < 10 then [digitChar n]
  else decChars (n / 10) ++ [digitChar (n % 10)]
decreasing_by exact Nat.div_lt_self (by omega) (by omega)

/-- Rust `{:#x}`: `0x` followed by the hex digits. -/
def fmtHex (n : Nat) : List Char :=
  '0' :: 'x' :: hexChars n

/-- Rust `{:#08x}`: `0x`, zero padding up to a total width of 8, hex digits. -/
def fmtHex08 (n : Nat) : List Char :=
  '0' :: 'x' :: (List.replicate (6 - (hexChars n).length) '0' ++ hexChars n)

/-- One UEFI memory descriptor, the fields `save_memory_map` reads:
`desc.ty.0` (the raw `u32` type code), `desc.phys_start`, `desc.page_count`,
and `desc.att.bits()` (a `u64` bit set). -/
structure MemoryDescriptor where
  ty : Nat
  phys_start : Nat
  page_count : Nat
  att : Nat
  deriving DecidableEq, Repr

/-- The memory type `save_memory_map` passes to `boot::memory_map`
(line 33), i.e. the class used for this other boot-time allocation. -/
def memoryMapAllocType : Nat := LOADER_DATA

/-- The `", "` separator of the format string. -/
def sepChars : List Char := [',', ' ']

/-- One descriptor line, following the format string
`"{}, {:#x}, {:?}, {:#08x}, {}, {:#x}\n"` applied to the index, the raw type
code, the type name, the physical start, the page count, and
`desc.att.bits() & 0xfffff`. -/
def descLine (i : Nat) (d : MemoryDescriptor) (tyName : Nat → List Char) :
    List Char :=
  decChars i ++ sepChars ++ fmtHex d.ty ++ sepChars ++ tyName d.ty ++ sepChars
    ++ fmtHex08 d.phys_start ++ sepChars ++ decChars d.page_count ++ sepChars
    ++ fmtHex (d.att &&& 1048575) ++ ['\n']

/-- The header line written first (line 30). -/
def headerLine : List Char :=
  "Index, Type, Type(name), PhysicalStart, NumberOfPages, Attribute\n".data

/-- Everything `save_memory_map` writes to the file: the header line, then
one line per descriptor in enumeration order, and nothing else. -/
def saveMemoryMapOutput (descs : List MemoryDescriptor) (tyName : Nat → List Char) :
    List Char :=
  headerLine ++ (List.map (fun p => descLine p.1 p.2 tyName) descs.enum).flatten

/-! ## Helper lemmas -/

theorem copySegment_skip {p : ProgramHeader} (src : List Nat) (m : Nat → Nat)
    (h : p.p_type ≠ PT_LOAD) : copySegment src m p = .ok m := by
  simp [copySegment, h]

theorem computeRange_skip {p : ProgramHeader} (acc : Nat × Nat) (ph : List ProgramHeader)
    (h : p.p_type ≠ PT_LOAD) : computeRange acc (p :: ph) = computeRange acc ph := by
  simp [computeRange, h]

theorem computeRange_ignore {p : ProgramHeader} (h : p.p_type ≠ PT_LOAD)
    (ph1 ph2 : List ProgramHeader) :
    ∀ acc, computeRange acc (ph1 ++ p :: ph2) = computeRange acc (ph1 ++ ph2) := by
  induction ph1 with
  | nil => intro acc; simpa using computeRange_skip acc ph2 h
  | cons q ph1 ih =>
    intro acc
    simp only [List.cons_append, computeRange]
    split
    · exact ih acc
    · cases hq : checkedAdd64 q.p_vaddr q.p_memsz with
      | error e => rfl
      | ok v => exact ih _

theorem loadSegments_ignore {p : ProgramHeader} (h : p.p_type ≠ PT_LOAD)
    (src : List Nat) (ph1 ph2 : List ProgramHeader) :
    ∀ m, loadSegments src m (ph1 ++ p :: ph2) = loadSegments src m (ph1 ++ ph2) := by
  induction ph1 with
  | nil =>
    intro m
    show loadSegments src m (p :: ph2) = loadSegments src m ph2
    simp [loadSegments, copySegment_skip src m h]
  | cons q ph1 ih =>
    intro m
    simp only [List.cons_append, loadSegments]
    cases hq : copySegment src m q with
    | error e => rfl
    | ok m1 => exact ih m1

theorem planPages_ignore {p : ProgramHeader} (h : p.p_type ≠ PT_LOAD)
    (ph1 ph2 : List ProgramHeader) :
    planPages (ph1 ++ p :: ph2) = planPages (ph1 ++ ph2) := by
  unfold planPages
  rw [computeRange_ignore h ph1 ph2]

theorem computeRange_no_load (ph : List ProgramHeader)
    (h : ∀ p ∈ ph, p.p_type ≠ PT_LOAD) : ∀ acc, computeRange acc ph = .ok acc := by
  induction ph with
  | nil => intro acc; rfl
  | cons q ph ih =>
    intro acc
    rw [computeRange_skip acc ph (h q (by simp))]
    exact ih (fun p hp => h p (by simp [hp])) acc

/-! ## C6: non-loadable headers are ignored entirely -/

/-- C6: a program header whose type is not `PT_LOAD` is ignored entirely:
copying it is a no-op that writes nothing and raises no error, and deleting
it from the table changes neither the Planner's result nor the copy loop's. -/
theorem C6_nonloadable_ignored (p : ProgramHeader) (h : p.p_type ≠ PT_LOAD) :
    (∀ src m, copySegment src m p = Except.ok m)
    ∧ (∀ ph1 ph2, planPages (ph1 ++ p :: ph2) = planPages (ph1 ++ ph2))
    ∧ (∀ src m ph1 ph2,
        loadSegments src m (ph1 ++ p :: ph2) = loadSegments src m (ph1 ++ ph2)) :=
  ⟨fun src m => copySegment_skip src m h,
   fun ph1 ph2 => planPages_ignore h ph1 ph2,
   fun src m ph1 ph2 => loadSegments_ignore h src ph1 ph2 m⟩

/-- C6 at a concrete input: a `PT_PHDR` (type 6) header between two loadable
ones changes nothing. -/
theorem C6_witness :
    copySegment [3] (fun _ => 0) ⟨6, 0, 0, 0, 0⟩ = Except.ok (fun _ => 0)
    ∧ planPages [⟨1, 0, 4096, 1, 1⟩, ⟨6, 0, 0, 0, 0⟩, ⟨1, 0, 8192, 1, 1⟩]
      = planPages [⟨1, 0, 4096, 1, 1⟩, ⟨1, 0, 8192, 1, 1⟩]
    ∧ loadSegments [3] (fun _ => 0) [⟨6, 0, 0, 0, 0⟩]
      = loadSegments [3] (fun _ => 0) [] := by
  have h := C6_nonloadable_ignored ⟨6, 0, 0, 0, 0⟩ (by decide)
  exact ⟨h.1 [3] (fun _ => 0),
    h.2.1 [⟨1, 0, 4096, 1, 1⟩] [⟨1, 0, 8192, 1, 1⟩],
    h.2.2 [3] (fun _ => 0) [] []⟩

/-! ## C3: no loadable segments means a fatal failure before allocation -/

/-- C3: on a program-header table with no loadable segment, the Planner's
`addr_end - addr_start` hits the sentinel `usize::MAX` and panics
(`Except.error`), so `load_elf` aborts without issuing an allocation request
and without copying anything. -/
theorem C3_no_loadable_fatal (ph : List ProgramHeader)
    (h : ∀ p ∈ ph, p.p_type ≠ PT_LOAD) :
    planPages ph = .error subOverflowErr
    ∧ ∀ src m, load_elf src m ph = .error subOverflowErr := by
  have hp : planPages ph = .error subOverflowErr := by
    unfold planPages
    rw [computeRange_no_load ph h (USIZE_MAX, 0)]
    simp [checkedSub64, USIZE_MAX]
  refine ⟨hp, fun src m => ?_⟩
  unfold load_elf
  rw [hp]

/-- C3 at a concrete input: a table holding a single non-loadable header. -/
theorem C3_witness :
    planPages [(⟨6, 0, 0, 0, 0⟩ : ProgramHeader)] = .error subOverflowErr
    ∧ load_elf [] (fun _ => 0) [(⟨6, 0, 0, 0, 0⟩ : ProgramHeader)]
      = .error subOverflowErr := by
  have h := C3_no_loadable_fatal [⟨6, 0, 0, 0, 0⟩] (by decide)
  exact ⟨h.1, h.2 [] (fun _ => 0)⟩

/-! ## Characterizing one copy step -/

theorem copySegment_ok_iff (src : List Nat) (m m1 : Nat → Nat) (p : ProgramHeader)
    (hload : p.p_type = PT_LOAD) :
    copySegment src m p = .ok m1 ↔
      p.p_filesz ≤ p.p_memsz ∧ p.p_offset + p.p_filesz < U64_MOD
      ∧ p.p_offset + p.p_filesz ≤ src.length ∧ m1 = segWrite src p m := by
  unfold copySegment segGuard checkedAdd64
  rw [if_neg (by simp [hload])]
  by_cases h1 : p.p_memsz < p.p_filesz
  · simp only [if_pos h1]
    constructor
    · intro hc; exact absurd hc (by simp)
    · intro hc; omega
  · rw [if_neg h1]
    by_cases h2 : p.p_offset + p.p_filesz < U64_MOD
    · rw [if_pos h2]
      by_cases h3 : src.length < p.p_offset + p.p_filesz
      · simp only [if_pos h3]
        constructor
        · intro hc; exact absurd hc (by simp)
        · intro hc; omega
      · simp only [if_neg h3]
        constructor
        · intro hc
          refine ⟨by omega, h2, by omega, ?_⟩
          exact (Except.ok.injEq _ _ |>.mp hc).symm
        · intro hc; rw [hc.2.2.2]
    · rw [if_neg h2]
      constructor
      · intro hc; exact absurd hc (by simp)
      · intro hc; omega

theorem copySegment_cases (src : List Nat) (m : Nat → Nat) (p : ProgramHeader) :
    (∃ e, copySegment src m p = .error e) ∨ ∃ m1, copySegment src m p = .ok m1 := by
  cases h : copySegment src m p with
  | error e => exact Or.inl ⟨e, rfl⟩
  | ok m1 => exact Or.inr ⟨m1, rfl⟩

theorem segWrite_frame (src : List Nat) (p : ProgramHeader) (m : Nat → Nat) (a : Nat)
    (h : a < p.p_vaddr ∨ p.p_vaddr + p.p_memsz ≤ a) : segWrite src p m a = m a := by
  unfold segWrite
  rw [if_neg (by omega)]

/-! ## C4: out-of-bounds source reads are caught -/

/-- C4: for a loadable segment whose `p_offset + p_filesz` exceeds the source
buffer length, the copy step fails with a panic (`Except.error`), and whenever
a copy step succeeds the bounds check `p_offset + p_filesz ≤ src.length` had
passed, so no source byte outside the buffer is ever read. -/
theorem C4_source_bounds_checked (src : List Nat) (m : Nat → Nat) (p : ProgramHeader)
    (hload : p.p_type = PT_LOAD) :
    (src.length < p.p_offset + p.p_filesz → ∃ e, copySegment src m p = .error e)
    ∧ ∀ m1, copySegment src m p = .ok m1 → p.p_offset + p.p_filesz ≤ src.length := by
  constructor
  · intro hoob
    rcases copySegment_cases src m p with he | ⟨m1, hm1⟩
    · exact he
    · have := (copySegment_ok_iff src m m1 p hload).mp hm1
      omega
  · intro m1 hm1
    exact ((copySegment_ok_iff src m m1 p hload).mp hm1).2.2.1

/-- C4 at a concrete input: a segment reading two bytes at offset 3 from a
three-byte buffer panics. -/
theorem C4_witness :
    (∃ e, copySegment [7, 8, 9] (fun _ => 0) ⟨1, 3, 4096, 2, 2⟩ = .error e)
    ∧ copySegment [7, 8, 9] (fun _ => 0) ⟨1, 3, 4096, 2, 2⟩ = .error srcSliceErr := by
  refine ⟨(C4_source_bounds_checked [7, 8, 9] (fun _ => 0) ⟨1, 3, 4096, 2, 2⟩
    (by decide)).1 (by decide), ?_⟩
  rfl

/-! ## C9: the destination window is never overrun -/

/-- C9: a loadable segment with `p_filesz > p_memsz` makes the copy step panic
on the `dest[..p_filesz]` bounds check before any byte is written; under the
precondition `p_filesz ≤ p_memsz` that panic cannot fire, and a successful
copy step changes no byte outside `[p_vaddr, p_vaddr + p_memsz)`. -/
theorem C9_dest_window (src : List Nat) (m : Nat → Nat) (p : ProgramHeader)
    (hload : p.p_type = PT_LOAD) :
    (p.p_memsz < p.p_filesz → copySegment src m p = .error destSliceErr)
    ∧ (p.p_filesz ≤ p.p_memsz → copySegment src m p ≠ .error destSliceErr)
    ∧ ∀ m1, copySegment src m p = .ok m1 →
        ∀ a, m1 a ≠ m a → p.p_vaddr ≤ a ∧ a < p.p_vaddr + p.p_memsz := by
  refine ⟨?_, ?_, ?_⟩
  · intro h1
    unfold copySegment segGuard
    rw [if_neg (by simp [hload]), if_pos h1]
  · intro h1 hc
    unfold copySegment segGuard checkedAdd64 at hc
    rw [if_neg (by simp [hload]), if_neg (by omega)] at hc
    by_cases h2 : p.p_offset + p.p_filesz < U64_MOD
    · rw [if_pos h2] at hc
      by_cases h3 : src.length < p.p_offset + p.p_filesz
      · simp only [if_pos h3, Except.error.injEq] at hc
        exact absurd hc (by decide)
      · simp only [if_neg h3] at hc
        exact absurd hc (by simp)
    · rw [if_neg h2] at hc
      simp only [Except.error.injEq] at hc
      exact absurd hc (by decide)
  · intro m1 hm1 a ha
    have hw := ((copySegment_ok_iff src m m1 p hload).mp hm1).2.2.2
    by_contra hout
    exact ha (hw ▸ segWrite_frame src p m a (by omega))

/-- C9 at a concrete input: a loadable segment with `p_filesz = 2` but
`p_memsz = 1` panics on the dest slice bounds check. -/
theorem C9_witness :
    copySegment [7, 8, 9] (fun _ => 0) ⟨1, 0, 64, 2, 1⟩ = .error destSliceErr :=
  (C9_dest_window [7, 8, 9] (fun _ => 0) ⟨1, 0, 64, 2, 1⟩ (by decide)).1 (by decide)

/-! ## C2: the planner computes min/max over loadable segments -/

theorem checkedAdd64_ok {a b v : Nat} (h : checkedAdd64 a b = .ok v) :
    v = a + b ∧ a + b < U64_MOD := by
  unfold checkedAdd64 at h
  by_cases hc : a + b < U64_MOD
  · rw [if_pos hc] at h
    exact ⟨(Except.ok.inj h).symm, hc⟩
  · rw [if_neg hc] at h; cases h

theorem checkedSub64_ok {a b v : Nat} (h : checkedSub64 a b = .ok v) :
    v = a - b ∧ b ≤ a := by
  unfold checkedSub64 at h
  by_cases hc : b ≤ a
  · rw [if_pos hc] at h
    exact ⟨(Except.ok.inj h).symm, hc⟩
  · rw [if_neg hc] at h; cases h

theorem computeRange_ok_spec (ph : List ProgramHeader) :
    ∀ a b s e, computeRange (a, b) ph = .ok (s, e) →
      (s = a ∨ ∃ p, p ∈ ph ∧ p.p_type = PT_LOAD ∧ s = p.p_vaddr)
      ∧ s ≤ a ∧ (∀ p ∈ ph, p.p_type = PT_LOAD → s ≤ p.p_vaddr)
      ∧ (e = b ∨ ∃ p, p ∈ ph ∧ p.p_type = PT_LOAD ∧ e = p.p_vaddr + p.p_memsz)
      ∧ b ≤ e ∧ (∀ p ∈ ph, p.p_type = PT_LOAD → p.p_vaddr + p.p_memsz ≤ e) := by
  induction ph with
  | nil =>
    intro a b s e h
    simp only [computeRange, Except.ok.injEq, Prod.mk.injEq] at h
    obtain ⟨hs, he⟩ := h
    subst hs; subst he
    exact ⟨Or.inl rfl, le_refl _, by simp, Or.inl rfl, le_refl _, by simp⟩
  | cons q ph ih =>
    intro a b s e h
    by_cases hq : q.p_type = PT_LOAD
    · rw [computeRange, if_neg (by simp [hq])] at h
      cases hadd : checkedAdd64 q.p_vaddr q.p_memsz with
      | error er => rw [hadd] at h; cases h
      | ok v =>
        rw [hadd] at h
        obtain ⟨hv, _⟩ := checkedAdd64_ok hadd
        obtain ⟨hs1, hs2, hs3, he1, he2, he3⟩ := ih (min a q.p_vaddr) (max b v) s e h
        refine ⟨?_, le_trans hs2 (min_le_left _ _), ?_, ?_,
          le_trans (le_max_left _ _) he2, ?_⟩
        · rcases hs1 with hs1 | ⟨p, hp, hpl, hpv⟩
          · rcases Nat.le_total a q.p_vaddr with hle | hle
            · exact Or.inl (hs1.trans (min_eq_left hle))
            · exact Or.inr ⟨q, by simp, hq, hs1.trans (min_eq_right hle)⟩
          · exact Or.inr ⟨p, by simp [hp], hpl, hpv⟩
        · intro p hp hpl
          rcases List.mem_cons.mp hp with rfl | hp
          · exact le_trans hs2 (min_le_right _ _)
          · exact hs3 p hp hpl
        · rcases he1 with he1 | ⟨p, hp, hpl, hpe⟩
          · rcases Nat.le_total v b with hle | hle
            · exact Or.inl (he1.trans (max_eq_left hle))
            · exact Or.inr ⟨q, by simp, hq, he1.trans ((max_eq_right hle).trans hv)⟩
          · exact Or.inr ⟨p, by simp [hp], hpl, hpe⟩
        · intro p hp hpl
          rcases List.mem_cons.mp hp with rfl | hp
          · exact le_of_eq_of_le hv.symm (le_trans (le_max_right b v) he2)
          · exact he3 p hp hpl
    · rw [computeRange_skip (a, b) ph hq] at h
      obtain ⟨hs1, hs2, hs3, he1, he2, he3⟩ := ih a b s e h
      refine ⟨?_, hs2, ?_, ?_, he2, ?_⟩
      · rcases hs1 with hs1 | ⟨p, hp, hpl, hpv⟩
        · exact Or.inl hs1
        · exact Or.inr ⟨p, by simp [hp], hpl, hpv⟩
      · intro p hp hpl
        rcases List.mem_cons.mp hp with rfl | hp
        · exact absurd hpl hq
        · exact hs3 p hp hpl
      · rcases he1 with he1 | ⟨p, hp, hpl, hpe⟩
        · exact Or.inl he1
        · exact Or.inr ⟨p, by simp [hp], hpl, hpe⟩
      · intro p hp hpl
        rcases List.mem_cons.mp hp with rfl | hp
        · exact absurd hpl hq
        · exact he3 p hp hpl

theorem planPages_ok {ph : List ProgramHeader} {s e cnt : Nat}
    (h : planPages ph = .ok (s, e, cnt)) :
    computeRange (USIZE_MAX, 0) ph = .ok (s, e) ∧ s ≤ e
    ∧ cnt = (e - s + (PAGE_SIZE - 1)) / PAGE_SIZE := by
  unfold planPages at h
  split at h
  · cases h
  · rename_i s' e' hr
    split at h
    · cases h
    · rename_i memsz hsub
      split at h
      · cases h
      · rename_i t hadd
        obtain ⟨hm, hse⟩ := checkedSub64_ok hsub
        obtain ⟨ht, _⟩ := checkedAdd64_ok hadd
        have h' := Except.ok.inj h
        simp only [Prod.mk.injEq] at h'
        obtain ⟨h1, h2, h3⟩ := h'
        subst h1; subst h2
        refine ⟨hr, hse, ?_⟩
        subst hm; subst ht
        rw [← h3]
        have hps : PAGE_SIZE = 4096 := rfl
        rw [hps]
        omega

/-- C2: whenever the Planner succeeds on a table with at least one loadable
segment, its `addr_start` is the least loadable `p_vaddr`, its `addr_end` is
the greatest loadable `p_vaddr + p_memsz`, and the page count it passes to the
allocator is `ceil((addr_end - addr_start) / 4096)`. -/
theorem C2_planner_range (ph : List ProgramHeader) (s e cnt : Nat)
    (hwf : ∀ p ∈ ph, p.p_vaddr < U64_MOD)
    (hne : ∃ p ∈ ph, p.p_type = PT_LOAD)
    (hok : planPages ph = .ok (s, e, cnt)) :
    s ∈ loadableVaddrs ph ∧ (∀ v ∈ loadableVaddrs ph, s ≤ v)
    ∧ e ∈ loadableEnds ph ∧ (∀ v ∈ loadableEnds ph, v ≤ e)
    ∧ cnt = (e - s + (PAGE_SIZE - 1)) / PAGE_SIZE := by
  obtain ⟨hr, _, hcnt⟩ := planPages_ok hok
  obtain ⟨hs1, _, hs3, he1, _, he3⟩ := computeRange_ok_spec ph USIZE_MAX 0 s e hr
  obtain ⟨p0, hp0, hp0l⟩ := hne
  have hmax : U64_MOD = USIZE_MAX + 1 := rfl
  refine ⟨?_, ?_, ?_, ?_, hcnt⟩
  · rcases hs1 with hs1 | ⟨p, hp, hpl, hpv⟩
    · have h1 := hs3 p0 hp0 hp0l
      have h2 := hwf p0 hp0
      have : s = p0.p_vaddr := by omega
      simp only [loadableVaddrs, List.mem_map]
      exact ⟨p0, List.mem_filter.mpr ⟨hp0, by simp [hp0l]⟩, this.symm⟩
    · simp only [loadableVaddrs, List.mem_map]
      exact ⟨p, List.mem_filter.mpr ⟨hp, by simp [hpl]⟩, hpv.symm⟩
  · intro v hv
    simp only [loadableVaddrs, List.mem_map] at hv
    obtain ⟨p, hp, hpv⟩ := hv
    obtain ⟨hpm, hpl⟩ := List.mem_filter.mp hp
    exact hpv ▸ hs3 p hpm (by simpa using hpl)
  · rcases he1 with he1 | ⟨p, hp, hpl, hpe⟩
    · have h1 := he3 p0 hp0 hp0l
      have : e = p0.p_vaddr + p0.p_memsz := by omega
      simp only [loadableEnds, List.mem_map]
      exact ⟨p0, List.mem_filter.mpr ⟨hp0, by simp [hp0l]⟩, this.symm⟩
    · simp only [loadableEnds, List.mem_map]
      exact ⟨p, List.mem_filter.mpr ⟨hp, by simp [hpl]⟩, hpe.symm⟩
  · intro v hv
    simp only [loadableEnds, List.mem_map] at hv
    obtain ⟨p, hp, hpv⟩ := hv
    obtain ⟨hpm, hpl⟩ := List.mem_filter.mp hp
    exact hpv ▸ he3 p hpm (by simpa using hpl)

/-- C2 at the spec's own example: segments `{vaddr 0x1000, filesz 0x100,
memsz 0x200}` and `{vaddr 0x2000, filesz 0x50, memsz 0x50}` give the range
`[0x1000, 0x2050)` and 2 pages. -/
theorem C2_witness :
    4096 ∈ loadableVaddrs [⟨1, 0, 4096, 256, 512⟩, ⟨1, 256, 8192, 80, 80⟩]
    ∧ (∀ v ∈ loadableVaddrs [(⟨1, 0, 4096, 256, 512⟩ : ProgramHeader),
        ⟨1, 256, 8192, 80, 80⟩], 4096 ≤ v)
    ∧ 8272 ∈ loadableEnds [⟨1, 0, 4096, 256, 512⟩, ⟨1, 256, 8192, 80, 80⟩]
    ∧ (∀ v ∈ loadableEnds [(⟨1, 0, 4096, 256, 512⟩ : ProgramHeader),
        ⟨1, 256, 8192, 80, 80⟩], v ≤ 8272)
    ∧ 2 = (8272 - 4096 + (PAGE_SIZE - 1)) / PAGE_SIZE :=
  C2_planner_range [⟨1, 0, 4096, 256, 512⟩, ⟨1, 256, 8192, 80, 80⟩] 4096 8272 2
    (by decide) ⟨⟨1, 0, 4096, 256, 512⟩, by simp, rfl⟩ rfl

/-! ## The copy loop: frame, replay and correctness lemmas -/

theorem loadSegments_frame (src : List Nat) (ph : List ProgramHeader) :
    ∀ m m1, loadSegments src m ph = .ok m1 →
      ∀ a, (∀ p ∈ ph, p.p_type = PT_LOAD → a < p.p_vaddr ∨ p.p_vaddr + p.p_memsz ≤ a) →
      m1 a = m a := by
  induction ph with
  | nil =>
    intro m m1 h a _
    rw [← Except.ok.inj h]
  | cons p ph ih =>
    intro m m1 h a ha
    simp only [loadSegments] at h
    cases hc : copySegment src m p with
    | error e => rw [hc] at h; cases h
    | ok m2 =>
      rw [hc] at h
      have htail := ih m2 m1 h a (fun p' hp' hl' => ha p' (List.mem_cons_of_mem _ hp') hl')
      by_cases hl : p.p_type = PT_LOAD
      · have hm2 := ((copySegment_ok_iff src m m2 p hl).mp hc).2.2.2
        rw [htail, hm2, segWrite_frame src p m a (ha p (List.mem_cons_self _ _) hl)]
      · have hm2 : m = m2 := Except.ok.inj ((copySegment_skip src m hl).symm.trans hc)
        rw [htail, ← hm2]

theorem loadSegments_ok_exists (src : List Nat) (ph : List ProgramHeader) :
    ∀ m m1, loadSegments src m ph = .ok m1 →
      ∀ m', ∃ m1', loadSegments src m' ph = .ok m1' := by
  induction ph with
  | nil => intro m m1 _ m'; exact ⟨m', rfl⟩
  | cons p ph ih =>
    intro m m1 h m'
    simp only [loadSegments] at h ⊢
    cases hc : copySegment src m p with
    | error e => rw [hc] at h; cases h
    | ok m2 =>
      rw [hc] at h
      by_cases hl : p.p_type = PT_LOAD
      · obtain ⟨h1, h2, h3, _⟩ := (copySegment_ok_iff src m m2 p hl).mp hc
        have hc' : copySegment src m' p = .ok (segWrite src p m') :=
          (copySegment_ok_iff src m' _ p hl).mpr ⟨h1, h2, h3, rfl⟩
        rw [hc']
        exact ih m2 m1 h (segWrite src p m')
      · rw [copySegment_skip src m' hl]
        exact ih m2 m1 h m'

theorem loadSegments_compare (src : List Nat) (ph : List ProgramHeader) :
    ∀ m m' r r', loadSegments src m ph = .ok r → loadSegments src m' ph = .ok r' →
      ∀ a, r a = r' a ∨ (r a = m a ∧ r' a = m' a) := by
  induction ph with
  | nil =>
    intro m m' r r' h h' a
    rw [← Except.ok.inj h, ← Except.ok.inj h']
    exact Or.inr ⟨rfl, rfl⟩
  | cons p ph ih =>
    intro m m' r r' h h' a
    simp only [loadSegments] at h h'
    by_cases hl : p.p_type = PT_LOAD
    · cases hc : copySegment src m p with
      | error e => rw [hc] at h; cases h
      | ok m2 =>
        rw [hc] at h
        obtain ⟨h1, h2, h3, hm2⟩ := (copySegment_ok_iff src m m2 p hl).mp hc
        have hc' : copySegment src m' p = .ok (segWrite src p m') :=
          (copySegment_ok_iff src m' _ p hl).mpr ⟨h1, h2, h3, rfl⟩
        rw [hc'] at h'
        rcases ih m2 (segWrite src p m') r r' h h' a with heq | ⟨hr, hr'⟩
        · exact Or.inl heq
        · by_cases hw : p.p_vaddr ≤ a ∧ a < p.p_vaddr + p.p_memsz
          · refine Or.inl ?_
            rw [hr, hr', hm2]
            unfold segWrite
            rw [if_pos hw, if_pos hw]
          · rw [hm2, segWrite_frame src p m a (by omega)] at hr
            rw [segWrite_frame src p m' a (by omega)] at hr'
            exact Or.inr ⟨hr, hr'⟩
    · rw [copySegment_skip src m hl] at h
      rw [copySegment_skip src m' hl] at h'
      exact ih m m' r r' h h' a

/-! ## C7: running the copy loop twice equals running it once -/

/-- C7: if the segment-copy loop succeeds once, running it again over the
resulting memory succeeds and changes nothing: the final contents equal those
after the single run. -/
theorem C7_copy_idempotent (src : List Nat) (m m1 : Nat → Nat)
    (ph : List ProgramHeader) (hok : loadSegments src m ph = .ok m1) :
    ∃ m2, loadSegments src m1 ph = .ok m2 ∧ ∀ a, m2 a = m1 a := by
  obtain ⟨m2, hm2⟩ := loadSegments_ok_exists src ph m m1 hok m1
  refine ⟨m2, hm2, fun a => ?_⟩
  rcases loadSegments_compare src ph m m1 m1 m2 hok hm2 a with heq | ⟨_, h2⟩
  · exact heq.symm
  · exact h2

/-- C7 at a concrete input: one loadable segment with a BSS tail, over a
nonzero initial memory. -/
theorem C7_witness :
    ∃ m1, loadSegments [3, 4, 5] (fun _ => 7) [⟨1, 0, 16, 2, 4⟩] = Except.ok m1
      ∧ ∃ m2, loadSegments [3, 4, 5] m1 [⟨1, 0, 16, 2, 4⟩] = Except.ok m2
        ∧ ∀ a, m2 a = m1 a :=
  ⟨_, rfl, C7_copy_idempotent [3, 4, 5] (fun _ => 7) _ [⟨1, 0, 16, 2, 4⟩] rfl⟩

/-! ## C1: the copy loop realizes each loadable segment's contract -/

/-- C1 as frozen is false: the code never checks that loadable segments are
disjoint, and when two loadable segments overlap the later one overwrites the
earlier one's bytes. Here both segments target address 100; after the loop the
byte there is 7 (the second segment's source byte), not 5 (the first's), so
`segmentLoaded` fails for the first segment even though the loop succeeded. -/
theorem C1_counterexample :
    ∃ m1, loadSegments [5, 7] (fun _ => 0) [⟨1, 0, 100, 1, 1⟩, ⟨1, 1, 100, 1, 1⟩]
        = Except.ok m1
      ∧ m1 100 = 7 ∧ [5, 7].getD 0 0 = 5
      ∧ ¬ segmentLoaded [5, 7] m1 ⟨1, 0, 100, 1, 1⟩ :=
  ⟨_, rfl, rfl, rfl, fun hsl => absurd (hsl.1 0 (by decide)) (by decide)⟩

/-- C1 (amended with segment disjointness): if the copy loop succeeds and the
loadable segments' destination windows are pairwise disjoint, then every
loadable segment ends with its first `p_filesz` destination bytes equal to the
source bytes at `[p_offset, p_offset + p_filesz)` and bytes
`[p_filesz, p_memsz)` of its window zeroed. -/
theorem C1_amended_copy_correct (src : List Nat) (ph : List ProgramHeader) :
    ∀ m m1, loadSegments src m ph = .ok m1 → ph.Pairwise segDisjoint →
      ∀ p ∈ ph, p.p_type = PT_LOAD → segmentLoaded src m1 p := by
  induction ph with
  | nil => intro m m1 _ _ p hp; cases hp
  | cons q ph ih =>
    intro m m1 h hdisj p hp hl
    simp only [loadSegments] at h
    cases hc : copySegment src m q with
    | error e => rw [hc] at h; cases h
    | ok m2 =>
      rw [hc] at h
      have hdj := List.pairwise_cons.mp hdisj
      rcases List.mem_cons.mp hp with rfl | hp'
      · obtain ⟨hfm, _, _, hm2⟩ := (copySegment_ok_iff src m m2 p hl).mp hc
        have hfr : ∀ i, i < p.p_memsz → m1 (p.p_vaddr + i) = m2 (p.p_vaddr + i) := by
          intro i hi
          refine loadSegments_frame src ph m2 m1 h (p.p_vaddr + i) ?_
          intro q' hq' hql
          have := hdj.1 q' hq' hl hql
          omega
        constructor
        · intro i hi
          rw [hfr i (by omega), hm2]
          unfold segWrite
          rw [if_pos (by omega), if_pos (by omega), Nat.add_sub_cancel_left]
        · intro i hge hlt
          rw [hfr i hlt, hm2]
          unfold segWrite
          rw [if_pos (by omega), if_neg (by omega)]
      · exact ih m2 m1 h hdj.2 p hp' hl

/-- C1 (amended) at a concrete input: two disjoint loadable segments, one with
a BSS tail, over a nonzero initial memory. -/
theorem C1_witness :
    ∃ m1, loadSegments [3, 4, 5] (fun _ => 7) [⟨1, 0, 16, 2, 4⟩, ⟨1, 2, 32, 1, 1⟩]
        = Except.ok m1
      ∧ ∀ p ∈ [(⟨1, 0, 16, 2, 4⟩ : ProgramHeader), ⟨1, 2, 32, 1, 1⟩],
          p.p_type = PT_LOAD → segmentLoaded [3, 4, 5] m1 p :=
  ⟨_, rfl, C1_amended_copy_correct [3, 4, 5] [⟨1, 0, 16, 2, 4⟩, ⟨1, 2, 32, 1, 1⟩]
    (fun _ => 7) _ rfl
    (by
      refine List.Pairwise.cons (fun q' hq' => ?_) (List.pairwise_singleton _ _)
      rw [List.mem_singleton] at hq'
      subst hq'
      intro _ _
      left
      decide)⟩

/-! ## C5: the allocation request -/

/-- C5 as frozen is false in its "distinct memory class" part: at this
concrete input `load_elf` requests the kernel-image pages with the
`LOADER_DATA` class — exactly `memoryMapAllocType`, the class
`save_memory_map` uses for its own boot-time allocation — not a distinct
one. -/
theorem C5_counterexample :
    ∃ m1, load_elf [9] (fun _ => 0) [⟨1, 0, 4096, 1, 1⟩]
        = Except.ok (⟨4096, memoryMapAllocType, 1⟩, m1) :=
  ⟨_, rfl⟩

/-- C5 (amended): the fixed-address allocation requests exactly the planned
page count at exactly the planned start address, but with the `LOADER_DATA`
memory class, the same class other boot-time allocations (the memory-map
snapshot) use. -/
theorem C5_alloc_request (src : List Nat) (m : Nat → Nat) (ph : List ProgramHeader)
    (s e cnt : Nat) (req : AllocRequest) (m1 : Nat → Nat)
    (hplan : planPages ph = .ok (s, e, cnt))
    (hok : load_elf src m ph = .ok (req, m1)) :
    req.address = s ∧ req.page_count = cnt
    ∧ req.memory_type = LOADER_DATA ∧ req.memory_type = memoryMapAllocType := by
  unfold load_elf at hok
  rw [hplan] at hok
  cases hl : loadSegments src m ph with
  | error er => rw [hl] at hok; cases hok
  | ok m1' =>
    rw [hl] at hok
    have h' := Except.ok.inj hok
    simp only [Prod.mk.injEq] at h'
    rw [← h'.1]
    exact ⟨rfl, rfl, rfl, rfl⟩

/-- C5 (amended) at a concrete input: one loadable one-byte segment at
address 4096. -/
theorem C5_witness :
    ∃ req m1, load_elf [9] (fun _ => 0) [⟨1, 0, 4096, 1, 1⟩] = Except.ok (req, m1)
      ∧ req.address = 4096 ∧ req.page_count = 1
      ∧ req.memory_type = LOADER_DATA ∧ req.memory_type = memoryMapAllocType :=
  ⟨_, _, rfl,
    C5_alloc_request [9] (fun _ => 0) [⟨1, 0, 4096, 1, 1⟩] 4096 4097 1 _ _ rfl rfl⟩

/-! ## Formatting lemmas for the memory-map export -/

theorem digitChar_lt_ne_newline : ∀ n, n < 16 → digitChar n ≠ '\n' := by decide

theorem hexChars_ne_newline (n : Nat) : '\n' ∉ hexChars n := by
  induction n using Nat.strong_induction_on with
  | _ n ih =>
    unfold hexChars
    split
    · next h =>
      rw [List.mem_singleton]
      intro hc
      exact digitChar_lt_ne_newline n h hc.symm
    · next h =>
      intro hc
      rcases List.mem_append.mp hc with h1 | h2
      · exact ih (n / 16) (Nat.div_lt_self (by omega) (by omega)) h1
      · rw [List.mem_singleton] at h2
        exact digitChar_lt_ne_newline (n % 16) (Nat.mod_lt _ (by omega)) h2.symm

theorem decChars_ne_newline (n : Nat) : '\n' ∉ decChars n := by
  induction n using Nat.strong_induction_on with
  | _ n ih =>
    unfold decChars
    split
    · next h =>
      rw [List.mem_singleton]
      intro hc
      exact digitChar_lt_ne_newline n (by omega) hc.symm
    · next h =>
      intro hc
      rcases List.mem_append.mp hc with h1 | h2
      · exact ih (n / 10) (Nat.div_lt_self (by omega) (by omega)) h1
      · rw [List.mem_singleton] at h2
        exact digitChar_lt_ne_newline (n % 10) (by omega) h2.symm

theorem fmtHex_ne_newline (n : Nat) : '\n' ∉ fmtHex n := by
  intro hc
  simp only [fmtHex, List.mem_cons] at hc
  rcases hc with hc | hc | hc
  · exact absurd hc (by decide)
  · exact absurd hc (by decide)
  · exact hexChars_ne_newline n hc

theorem fmtHex08_ne_newline (n : Nat) : '\n' ∉ fmtHex08 n := by
  intro hc
  simp only [fmtHex08, List.mem_cons] at hc
  rcases hc with hc | hc | hc
  · exact absurd hc (by decide)
  · exact absurd hc (by decide)
  · rcases List.mem_append.mp hc with h1 | h2
    · exact absurd (List.eq_of_mem_replicate h1) (by decide)
    · exact hexChars_ne_newline n h2

theorem descLine_count (i : Nat) (d : MemoryDescriptor) (tyName : Nat → List Char)
    (hty : '\n' ∉ tyName d.ty) : (descLine i d tyName).count '\n' = 1 := by
  unfold descLine
  simp only [List.count_append,
    List.count_eq_zero.mpr (decChars_ne_newline i),
    List.count_eq_zero.mpr (decChars_ne_newline d.page_count),
    List.count_eq_zero.mpr (fmtHex_ne_newline d.ty),
    List.count_eq_zero.mpr (fmtHex_ne_newline (d.att &&& 1048575)),
    List.count_eq_zero.mpr (fmtHex08_ne_newline d.phys_start),
    List.count_eq_zero.mpr hty,
    show sepChars.count '\n' = 0 from by decide]
  decide

theorem lines_flatten_count (tyName : Nat → List Char)
    (hty : ∀ n, '\n' ∉ tyName n) (l : List (Nat × MemoryDescriptor)) :
    ((l.map (fun p => descLine p.1 p.2 tyName)).flatten).count '\n' = l.length := by
  induction l with
  | nil => rfl
  | cons x l ih =>
    simp only [List.map_cons, List.flatten_cons, List.count_append, ih,
      descLine_count x.1 x.2 tyName (hty x.2.ty), List.length_cons]
    omega

theorem append_flatten_endswith :
    ∀ (l : List (List Char)) (A : List Char), (∃ t, A = t ++ ['\n']) →
      (∀ x ∈ l, ∃ t, x = t ++ ['\n']) → ∃ t, A ++ l.flatten = t ++ ['\n'] := by
  intro l
  induction l with
  | nil =>
    intro A hA _
    obtain ⟨t, ht⟩ := hA
    exact ⟨t, by rw [List.flatten_nil, List.append_nil, ht]⟩
  | cons x l ih =>
    intro A hA hl
    obtain ⟨tx, htx⟩ := hl x (by simp)
    obtain ⟨tA, htA⟩ := hA
    have hsplit : A ++ (x :: l).flatten = (A ++ x) ++ l.flatten := by
      rw [List.flatten_cons, List.append_assoc]
    rw [hsplit]
    exact ih (A ++ x) ⟨A ++ tx, by rw [htx, List.append_assoc]⟩
      (fun y hy => hl y (by simp [hy]))

/-! ## C8: the export is a header line plus one line per descriptor -/

/-- C8: provided the external type-name rendering contains no newline, the
memory-map export consists of the header line followed by exactly one
newline-terminated line per descriptor and no trailing framing: an empty
descriptor list yields exactly the header line, the newline count of the
output is `1 + descs.length`, and the output ends with the final newline. -/
theorem C8_export_format (tyName : Nat → List Char)
    (hty : ∀ n, '\n' ∉ tyName n) (descs : List MemoryDescriptor) :
    saveMemoryMapOutput [] tyName = headerLine
    ∧ (saveMemoryMapOutput descs tyName).count '\n' = 1 + descs.length
    ∧ ∃ t, saveMemoryMapOutput descs tyName = t ++ ['\n'] := by
  refine ⟨by simp [saveMemoryMapOutput], ?_, ?_⟩
  · unfold saveMemoryMapOutput
    rw [List.count_append, lines_flatten_count tyName hty descs.enum,
      show headerLine.count '\n' = 1 from by decide, List.enum_length]
  · unfold saveMemoryMapOutput
    refine append_flatten_endswith _ headerLine
      ⟨"Index, Type, Type(name), PhysicalStart, NumberOfPages, Attribute".data,
        by decide⟩ ?_
    intro x hx
    obtain ⟨p, _, hp⟩ := List.mem_map.mp hx
    exact ⟨_, hp.symm⟩

/-- C8 at a concrete input: with a concrete newline-free type renderer, the
empty list gives the bare header and a one-descriptor list gives two
newline-terminated lines. -/
theorem C8_witness :
    saveMemoryMapOutput [] (fun _ => ['A']) = headerLine
    ∧ (saveMemoryMapOutput [⟨7, 4096, 2, 5⟩] (fun _ => ['A'])).count '\n'
      = 1 + [(⟨7, 4096, 2, 5⟩ : MemoryDescriptor)].length
    ∧ ∃ t, saveMemoryMapOutput [⟨7, 4096, 2, 5⟩] (fun _ => ['A']) = t ++ ['\n'] :=
  C8_export_format (fun _ => ['A']) (fun _ h => absurd (List.mem_singleton.mp h) (by decide))
    [⟨7, 4096, 2, 5⟩]

/-! ## C10: the attribute field is the low 20 bits -/

/-- C10: the attribute field of each exported line is not the descriptor's
full attribute value but `att & 0xfffff`, i.e. the attribute reduced modulo
`2^20`; consequently two descriptors whose attributes differ by `2^20`
produce identical lines. -/
theorem C10_attribute_masked (i : Nat) (d : MemoryDescriptor)
    (tyName : Nat → List Char) :
    descLine i d tyName
      = decChars i ++ sepChars ++ fmtHex d.ty ++ sepChars ++ tyName d.ty ++ sepChars
        ++ fmtHex08 d.phys_start ++ sepChars ++ decChars d.page_count ++ sepChars
        ++ fmtHex (d.att % 2 ^ 20) ++ ['\n']
    ∧ descLine 0 ⟨0, 0, 0, 1048576⟩ tyName = descLine 0 ⟨0, 0, 0, 0⟩ tyName := by
  constructor
  · have h : d.att &&& 1048575 = d.att % 2 ^ 20 := by
      have h2 := Nat.and_pow_two_sub_one_eq_mod d.att 20
      norm_num at h2 ⊢
      exact h2
    unfold descLine
    rw [h]
  · rfl

end MikanLoader
